import Mathlib

/-!
# Verification of the hybrid retrieval and fusion engine

Shallow embedding of the hybrid search engine of this repository:
`hybrid_searcher.py` (RRF fusion, vector search, document resolution),
`hybrid_database.py` (keyword search over SQLite FTS5) and
`implement_reranking.py` (cross-encoder reranking).

Modelling conventions:
* Python floats are modelled as rationals (`ℚ`); the scores involved are
  small reciprocals and the claims under scrutiny are exact-arithmetic
  statements about them.
* A Python `dict` keyed by chunk id is modelled as an association list in
  insertion order (`dict` preserves insertion order; assignment to an
  existing key keeps its position).
* Python's `sorted(..., reverse=True)` (a stable sort, descending on the
  key, ties keeping encounter order) is modelled by the stable insertion
  sort `sortDescBy`.
* External components (FAISS, the FTS5 match set, the cross-encoder) are
  abstracted at their interface boundary: their outputs are parameters of
  the embedded functions, exactly as the source consumes them.
-/

namespace HybridSearch


/-! ## A stable descending sort, modelling Python sorted(-, key, reverse=True) -/

/-- Insert `x` into `l` before the first element whose key is not strictly
greater than `x`'s; elements with an equal key keep their place before `x`.
This is what makes the overall sort stable. -/
def insertDescBy (f : α → ℚ) (x : α) : List α → List α
  | [] => [x]
  | y :: rest => if f x < f y then y :: insertDescBy f x rest else x :: y :: rest

/-- Stable insertion sort by descending key `f`: the model of Python's
stable `sorted(items, key=f, reverse=True)`. -/
def sortDescBy (f : α → ℚ) : List α → List α
  | [] => []
  | x :: rest => insertDescBy f x (sortDescBy f rest)

/-! ## Reciprocal Rank Fusion (`HybridSearcher.hybrid_search`, lines 29-57)

The fused-score bookkeeping of the source is a Python dict from chunk id to
float, filled by two loops over the vector and keyword result lists. A
result list is consumed only through its chunk ids, so the fusion model
takes the two inputs as lists of chunk ids in best-first order. -/

/-- The `fused_scores` dict: an association list in insertion order. -/
abbrev FusedMap := List (Nat × ℚ)

/-- `1.0 / (60 + rank + 1)`: the RRF contribution of an item at zero-based
position `rank` in one result list (`K = 60`). -/
def contrib (rank : Nat) : ℚ := 1 / (60 + (rank : ℚ) + 1)

/-- Chunk ids of a fused map, in insertion order. -/
def keysOf (m : FusedMap) : List Nat := m.map Prod.fst

/-- `fused_scores[c] = x` on a Python dict: replace the value in place if
the key exists, else append at the end. -/
def dictSet (m : FusedMap) (c : Nat) (x : ℚ) : FusedMap :=
  match m with
  | [] => [(c, x)]
  | p :: rest => if p.1 = c then (p.1, x) :: rest else p :: dictSet rest c x

/-- `fused_scores[c] += x` if present else `fused_scores[c] = x`: the body
of the keyword loop. -/
def dictAdd (m : FusedMap) (c : Nat) (x : ℚ) : FusedMap :=
  match m with
  | [] => [(c, x)]
  | p :: rest => if p.1 = c then (p.1, p.2 + x) :: rest else p :: dictAdd rest c x

/-- `for rank, result in enumerate(vector_results): fused_scores[chunk_id] = 1.0/(60+rank+1)`
(lines 36-38), with the running rank made explicit. -/
def vectorLoop (m : FusedMap) (rank : Nat) : List Nat → FusedMap
  | [] => m
  | c :: rest => vectorLoop (dictSet m c (contrib rank)) (rank + 1) rest

/-- `for rank, result in enumerate(keyword_results): ...` (lines 40-45):
add the contribution if the id is already present, else insert it. -/
def keywordLoop (m : FusedMap) (rank : Nat) : List Nat → FusedMap
  | [] => m
  | c :: rest => keywordLoop (dictAdd m c (contrib rank)) (rank + 1) rest

/-- The `fused_scores` dict after both loops (lines 34-45). -/
def fuse (v l : List Nat) : FusedMap := keywordLoop (vectorLoop [] 0 v) 0 l

/-- `top_chunk_ids = sorted(fused_scores.items(), key=lambda x: x[1], reverse=True)[:k]`
(line 47): the fused ranking, as (chunk id, fused score) pairs. -/
def hybridFuse (v l : List Nat) (k : Nat) : FusedMap :=
  (sortDescBy Prod.snd (fuse v l)).take k

/-! ### Characterization of the fused map -/

/-- Zero-based position of `c` in a list (the rank of a result). Equals the
list's length when absent; meaningful only for members. -/
def rankIdx : List Nat → Nat → Nat
  | [], _ => 0
  | a :: rest, c => if a = c then 0 else rankIdx rest c + 1

/-- The entries the vector loop inserts: ids of `v` paired with the RRF
contribution of their rank, ranks counted from `r`. -/
def enumFrom (r : Nat) : List Nat → FusedMap
  | [] => []
  | c :: rest => (c, contrib r) :: enumFrom (r + 1) rest

/-- Total contribution the keyword loop adds to key `c`, ranks counted
from `r` (one summand per occurrence of `c`). -/
def lexBonus (r : Nat) : List Nat → Nat → ℚ
  | [], _ => 0
  | c :: rest, d => (if d = c then contrib r else 0) + lexBonus (r + 1) rest d

/-- The entries the keyword loop appends for ids not among the keys `ks`,
ranks counted from `r`. -/
def newEntries (r : Nat) (ks : List Nat) : List Nat → FusedMap
  | [] => []
  | c :: rest =>
    if c ∈ ks then newEntries (r + 1) ks rest
    else (c, contrib r) :: newEntries (r + 1) ks rest

/-! ### Ranks, fused scores, tie-break order -/

/-- The fused score the spec prescribes: the sum, over the input lists
containing `c`, of the RRF contribution of its zero-based rank there. -/
def rrfScore (v l : List Nat) (c : Nat) : ℚ :=
  (if c ∈ v then contrib (rankIdx v c) else 0)
    + (if c ∈ l then contrib (rankIdx l c) else 0)

/-- Rank of `c` in a result list, `⊤` (+∞) when absent. -/
def rankO (xs : List Nat) (c : Nat) : WithTop Nat :=
  if c ∈ xs then (rankIdx xs c : WithTop Nat) else ⊤

/-- The deterministic tie-break order of the spec: by vector rank
(absent = +∞), then lexical rank (absent = +∞), then ascending chunk id. -/
def TieLt (v l : List Nat) (c d : Nat) : Prop :=
  rankO v c < rankO v d
    ∨ (rankO v c = rankO v d
        ∧ (rankO l c < rankO l d ∨ (rankO l c = rankO l d ∧ c < d)))

/-! ## Vector search (`HybridSearcher.vector_search`, lines 13-27)

FAISS is external: its output row `zip(distances[0], indices[0])` is the
input of the embedded function, a list of (distance, index) pairs. The
loop keeps entries with index `!= -1`, scoring them `1.0 / (1.0 + distance)`
and recording the enumeration position as `rank`. -/

structure VecResult where
  chunk_id : Int
  vector_score : ℚ
  rank : Nat
deriving DecidableEq

/-- The result-building loop of `vector_search`, with the enumeration
counter `i` explicit. -/
def vectorResultsLoop (i : Nat) : List (ℚ × Int) → List VecResult
  | [] => []
  | (d, idx) :: rest =>
    if idx = -1 then vectorResultsLoop (i + 1) rest
    else ⟨idx, 1 / (1 + d), i⟩ :: vectorResultsLoop (i + 1) rest

/-- `vector_search` applied to the FAISS output pairs. -/
def vector_search (pairs : List (ℚ × Int)) : List VecResult :=
  vectorResultsLoop 0 pairs

/-! ## Document resolution (`HybridSearcher._get_document_details`, lines 59-87)

The SQL is `SELECT ... FROM documents WHERE chunk_id IN (...)` with no
ORDER BY. `documents` is a SQLite rowid table whose INTEGER PRIMARY KEY is
`chunk_id` (`hybrid_database.py`, lines 17-28), so the rows come back in
the table's ascending-`chunk_id` scan order, independent of the order of
the input ids. The store parameter below is the table's row list in that
ascending key order. -/

structure DocRow where
  chunk_id : Nat
  content : String
  paper_title : String
  authors : String
  year : Int
  arxiv_id : String
  source_pdf : String
deriving DecidableEq

/-- `_get_document_details`: empty input short-circuits to `[]`; otherwise
the rows of the store whose key is among the input ids, in store order. -/
def getDocumentDetails (store : List DocRow) (ids : List Nat) : List DocRow :=
  if ids = [] then [] else store.filter (fun r => r.chunk_id ∈ ids)

/-- `fused_scores.get(chunk_id, 0.0)`: lookup in the full fused dict with
default `0`. -/
def dictGetD (m : FusedMap) (c : Nat) : ℚ :=
  match m with
  | [] => 0
  | p :: rest => if p.1 = c then p.2 else dictGetD rest c

/-- `hybrid_search` after the two index searches (lines 34-57): fuse, take
the top-`k` ids, resolve them against the store, and attach each returned
row's fused score. The vector and keyword result id lists are the
function's inputs, exactly as RRF consumes them. -/
def hybrid_search (store : List DocRow) (v l : List Nat) (k : Nat) :
    List (DocRow × ℚ) :=
  let fused := fuse v l
  let top := (sortDescBy Prod.snd fused).take k
  let docs := getDocumentDetails store (top.map Prod.fst)
  docs.map (fun r => (r, dictGetD fused r.chunk_id))

/-! ## Keyword search (`HybridDatabase.keyword_search`, lines 77-104)

The FTS5 internals are external; the embedded function takes the match
rows of the query, already in the `ORDER BY score` (ascending bm25,
best-first) order the SQL produces, and applies `LIMIT k` and the score
normalization of lines 94-102. SQLite's LIMIT treats a negative bound as
no bound. -/

structure FtsRow where
  chunk_id : Nat
  content : String
  paper_title : String
  authors : String
  score : ℚ
deriving DecidableEq

structure KeywordResult where
  chunk_id : Nat
  content : String
  paper_title : String
  authors : String
  keyword_score : ℚ
deriving DecidableEq

/-- SQLite `LIMIT k`: all rows when `k` is negative, else the first `k`. -/
def sqlLimit (k : Int) (rows : List α) : List α :=
  if k < 0 then rows else rows.take k.toNat

/-- `similarity = 1.0 / (1.0 + abs(score)) if score < 0 else 1.0` (line 95). -/
def normalizeScore (s : ℚ) : ℚ := if s < 0 then 1 / (1 + |s|) else 1

/-- `keyword_search` on the ordered match rows of a successfully parsed
query. -/
def keyword_search (orderedMatches : List FtsRow) (k : Int) : List KeywordResult :=
  (sqlLimit k orderedMatches).map
    (fun r => ⟨r.chunk_id, r.content, r.paper_title, r.authors, normalizeScore r.score⟩)

/-- Error taxonomy of the spec plus the SQLite error the code can raise. -/
inductive ApiError where
  | invalidArgument
  | retrievalUnavailable
  | operationalError
deriving DecidableEq

/-- `keyword_search` with its error channel made explicit: the method body
performs no `k` validation and cannot raise for `k ≤ 0`, so the result is
always `ok`. -/
def keywordSearchE (orderedMatches : List FtsRow) (k : Int) :
    Except ApiError (List KeywordResult) :=
  Except.ok (keyword_search orderedMatches k)

/-- `keyword_search` including the FTS5 MATCH step. SQLite FTS5 rejects
the empty string as a MATCH pattern with a query syntax error, which
`sqlite3` surfaces as `OperationalError` before any row is produced; the
code passes the query through unsanitized (line 86-89). A successfully
parsed query yields the oracle's ordered match rows. -/
def keywordSearchQuery (q : String) (orderedMatches : List FtsRow) (k : Int) :
    Except ApiError (List KeywordResult) :=
  if q = "" then Except.error ApiError.operationalError
  else keywordSearchE orderedMatches k

/-- `hybrid_search` with the error channels of its two index searches made
explicit (lines 31-32): the body has no try/except, so a failure of either
search propagates and aborts the whole query. `vector_search` is evaluated
first, as in the source. -/
def hybridSearchE (vres : Except ApiError (List Nat))
    (lres : Except ApiError (List Nat)) (k : Nat) :
    Except ApiError FusedMap := do
  let v ← vres
  let l ← lres
  pure (hybridFuse v l k)

/-! ## Reranking (`Reranker.rerank`, `implement_reranking.py` lines 19-45)

The cross-encoder is external: it returns one score per (query, candidate)
pair in input order, modelled by a scoring function applied to each
candidate (the query is fixed for one call). -/

structure RankedResult where
  text : String
  rerank_score : ℚ
  original_rank : Nat
deriving DecidableEq

/-- `Reranker.rerank`: empty candidates short-circuit to `[]`; otherwise
score every candidate, keep `original_rank = i + 1`, stable-sort by
descending score, truncate to `top_k`. -/
def rerank (score : String → ℚ) (candidates : List String) (top_k : Nat) :
    List RankedResult :=
  if candidates = [] then []
  else
    (sortDescBy RankedResult.rerank_score
      ((candidates.enum).map (fun p => ⟨p.2, score p.2, p.1 + 1⟩))).take top_k

/-- A document row with the given key and empty metadata, for concrete
instances. -/
def demoRow (c : Nat) : DocRow := ⟨c, "", "", "", 0, "", ""⟩

/-- A concrete FTS match row with a negative bm25 score. -/
def demoFtsRow : FtsRow := ⟨1, "", "", "", -2⟩

/-! ## Lemmas and claim theorems -/

theorem mem_insertDescBy (f : α → ℚ) (x z : α) (l : List α) :
    z ∈ insertDescBy f x l ↔ z = x ∨ z ∈ l := by
  induction l with
  | nil => simp [insertDescBy]
  | cons y rest ih =>
    by_cases h : f x < f y
    · simp only [insertDescBy, if_pos h, List.mem_cons, ih]
      tauto
    · simp only [insertDescBy, if_neg h, List.mem_cons]

theorem insertDescBy_perm (f : α → ℚ) (x : α) (l : List α) :
    (insertDescBy f x l).Perm (x :: l) := by
  induction l with
  | nil => simp [insertDescBy]
  | cons y rest ih =>
    by_cases h : f x < f y
    · simp only [insertDescBy, if_pos h]
      exact (ih.cons y).trans (List.Perm.swap x y rest)
    · simp [insertDescBy, if_neg h]

theorem sortDescBy_perm (f : α → ℚ) (l : List α) :
    (sortDescBy f l).Perm l := by
  induction l with
  | nil => simp [sortDescBy]
  | cons x rest ih =>
    exact (insertDescBy_perm f x (sortDescBy f rest)).trans (ih.cons x)

theorem sortDescBy_length (f : α → ℚ) (l : List α) :
    (sortDescBy f l).length = l.length :=
  (sortDescBy_perm f l).length_eq

theorem mem_sortDescBy (f : α → ℚ) (z : α) (l : List α) :
    z ∈ sortDescBy f l ↔ z ∈ l :=
  (sortDescBy_perm f l).mem_iff

theorem insertDescBy_sorted (f : α → ℚ) (x : α) (l : List α)
    (h : l.Pairwise (fun a b => f b ≤ f a)) :
    (insertDescBy f x l).Pairwise (fun a b => f b ≤ f a) := by
  induction l with
  | nil => simp [insertDescBy]
  | cons y rest ih =>
    by_cases hxy : f x < f y
    · simp only [insertDescBy, if_pos hxy]
      rw [List.pairwise_cons] at h ⊢
      refine ⟨?_, ih h.2⟩
      intro z hz
      rcases (mem_insertDescBy f x z rest).1 hz with rfl | hz
      · exact le_of_lt hxy
      · exact h.1 z hz
    · simp only [insertDescBy, if_neg hxy]
      rw [List.pairwise_cons] at h
      rw [List.pairwise_cons]
      refine ⟨?_, List.pairwise_cons.2 h⟩
      intro z hz
      rcases List.mem_cons.1 hz with rfl | hz
      · exact not_lt.1 hxy
      · exact le_trans (h.1 z hz) (not_lt.1 hxy)

/-- The sorted output is in non-increasing key order. -/
theorem sortDescBy_sorted (f : α → ℚ) (l : List α) :
    (sortDescBy f l).Pairwise (fun a b => f b ≤ f a) := by
  induction l with
  | nil => simp [sortDescBy]
  | cons x rest ih => exact insertDescBy_sorted f x (sortDescBy f rest) ih

theorem insertDescBy_pairwise_tie (f : α → ℚ) (T : α → α → Prop) (x : α) (l : List α)
    (h : l.Pairwise (fun a b => f a = f b → T a b))
    (hx : ∀ z ∈ l, f x = f z → T x z) :
    (insertDescBy f x l).Pairwise (fun a b => f a = f b → T a b) := by
  induction l with
  | nil => simp [insertDescBy]
  | cons y rest ih =>
    by_cases hxy : f x < f y
    · simp only [insertDescBy, if_pos hxy]
      rw [List.pairwise_cons] at h ⊢
      refine ⟨?_, ih h.2 (fun z hz => hx z (List.mem_cons_of_mem y hz))⟩
      intro z hz heq
      rcases (mem_insertDescBy f x z rest).1 hz with rfl | hz
      · exact absurd heq (ne_of_gt hxy)
      · exact h.1 z hz heq
    · simp only [insertDescBy, if_neg hxy]
      rw [List.pairwise_cons]
      exact ⟨fun z hz heq => hx z hz heq, h⟩

/-- Stability, in the form needed for tie-break analysis: if in the input
any earlier element is `T`-related to any later element whenever their keys
are equal, the same holds of the sorted output (ties keep encounter order). -/
theorem sortDescBy_pairwise_tie (f : α → ℚ) (T : α → α → Prop) (l : List α)
    (h : l.Pairwise (fun a b => f a = f b → T a b)) :
    (sortDescBy f l).Pairwise (fun a b => f a = f b → T a b) := by
  induction l with
  | nil => simp [sortDescBy]
  | cons x rest ih =>
    rw [List.pairwise_cons] at h
    refine insertDescBy_pairwise_tie f T x (sortDescBy f rest) (ih h.2) ?_
    intro z hz heq
    exact h.1 z ((mem_sortDescBy f z rest).1 hz) heq

/-- Sorting a strictly descending list is the identity. -/
theorem sortDescBy_of_sorted (f : α → ℚ) (l : List α)
    (h : l.Pairwise (fun a b => f b < f a)) :
    sortDescBy f l = l := by
  induction l with
  | nil => rfl
  | cons x rest ih =>
    rw [List.pairwise_cons] at h
    rw [sortDescBy, ih h.2]
    cases rest with
    | nil => rfl
    | cons y rest2 =>
      have hy : f y < f x := h.1 y (List.mem_cons_self y rest2)
      simp [insertDescBy, not_lt.2 (le_of_lt hy)]

theorem dictSet_of_not_mem (m : FusedMap) (c : Nat) (x : ℚ) (h : c ∉ keysOf m) :
    dictSet m c x = m ++ [(c, x)] := by
  induction m with
  | nil => rfl
  | cons p rest ih =>
    simp only [keysOf, List.map_cons, List.mem_cons] at h
    push_neg at h
    have hne : p.1 ≠ c := fun hc => h.1 hc.symm
    simp only [dictSet, if_neg hne, List.cons_append]
    rw [ih h.2]

theorem dictAdd_of_not_mem (m : FusedMap) (c : Nat) (x : ℚ) (h : c ∉ keysOf m) :
    dictAdd m c x = m ++ [(c, x)] := by
  induction m with
  | nil => rfl
  | cons p rest ih =>
    simp only [keysOf, List.map_cons, List.mem_cons] at h
    push_neg at h
    have hne : p.1 ≠ c := fun hc => h.1 hc.symm
    simp only [dictAdd, if_neg hne, List.cons_append]
    rw [ih h.2]

theorem map_if_eq_self (m : FusedMap) (c : Nat) (x : ℚ) (h : c ∉ keysOf m) :
    m.map (fun p => if p.1 = c then (p.1, p.2 + x) else p) = m := by
  have : ∀ p ∈ m, (if p.1 = c then (p.1, p.2 + x) else p) = p := by
    intro p hp
    have : p.1 ≠ c := by
      intro hc
      exact h (hc ▸ List.mem_map_of_mem Prod.fst hp)
    simp [this]
  rw [List.map_congr_left this]
  simp

theorem dictAdd_of_mem (m : FusedMap) (c : Nat) (x : ℚ)
    (hm : (keysOf m).Nodup) (h : c ∈ keysOf m) :
    dictAdd m c x = m.map (fun p => if p.1 = c then (p.1, p.2 + x) else p) := by
  induction m with
  | nil => simp [keysOf] at h
  | cons p rest ih =>
    simp only [keysOf, List.map_cons, List.nodup_cons] at hm
    by_cases hc : p.1 = c
    · subst hc
      simp [dictAdd, map_if_eq_self rest p.1 x hm.1]
    · simp only [keysOf, List.map_cons, List.mem_cons] at h
      rcases h with h | h
      · exact absurd h.symm hc
      · simp only [dictAdd, if_neg hc, List.map_cons, if_neg hc]
        rw [ih hm.2 h]

theorem keysOf_append (m₁ m₂ : FusedMap) :
    keysOf (m₁ ++ m₂) = keysOf m₁ ++ keysOf m₂ := by
  simp [keysOf]

theorem keysOf_map_if (m : FusedMap) (f : Nat × ℚ → ℚ) :
    keysOf (m.map (fun p => (p.1, f p))) = keysOf m := by
  simp [keysOf, Function.comp]

theorem keysOf_map_update (m : FusedMap) (c : Nat) (x : ℚ) :
    keysOf (m.map (fun p => if p.1 = c then (p.1, p.2 + x) else p)) = keysOf m := by
  simp only [keysOf, List.map_map]
  refine List.map_congr_left ?_
  intro p hp
  by_cases hpc : p.1 = c <;> simp [hpc, Function.comp]

theorem keysOf_enumFrom (r : Nat) (v : List Nat) : keysOf (enumFrom r v) = v := by
  induction v generalizing r with
  | nil => rfl
  | cons c rest ih => simp [enumFrom, keysOf] at ih ⊢; exact ih (r + 1)

/-- The vector loop over fresh, pairwise-distinct ids appends one entry per
id, ranks in encounter order. -/
theorem vectorLoop_eq (v : List Nat) (hv : v.Nodup) (m : FusedMap) (r : Nat)
    (hfresh : ∀ c ∈ v, c ∉ keysOf m) :
    vectorLoop m r v = m ++ enumFrom r v := by
  induction v generalizing m r with
  | nil => simp [vectorLoop, enumFrom]
  | cons c rest ih =>
    rw [List.nodup_cons] at hv
    have hc : c ∉ keysOf m := hfresh c (List.mem_cons_self c rest)
    rw [vectorLoop, dictSet_of_not_mem m c (contrib r) hc]
    rw [ih hv.2 (m ++ [(c, contrib r)]) (r + 1) ?_]
    · simp [enumFrom]
    · intro d hd
      rw [keysOf_append]
      simp only [List.mem_append]
      push_neg
      refine ⟨hfresh d (List.mem_cons_of_mem c hd), ?_⟩
      simp [keysOf]
      intro hdc
      exact hv.1 (hdc ▸ hd)

theorem lexBonus_nil (r : Nat) (d : Nat) : lexBonus r [] d = 0 := rfl

theorem lexBonus_not_mem (r : Nat) (l : List Nat) (d : Nat) (h : d ∉ l) :
    lexBonus r l d = 0 := by
  induction l generalizing r with
  | nil => rfl
  | cons c rest ih =>
    simp only [List.mem_cons] at h
    push_neg at h
    simp [lexBonus, if_neg h.1, ih (r + 1) h.2]

theorem newEntries_congr (r : Nat) (ks₁ ks₂ : List Nat) (l : List Nat)
    (h : ∀ c ∈ l, c ∈ ks₁ ↔ c ∈ ks₂) :
    newEntries r ks₁ l = newEntries r ks₂ l := by
  induction l generalizing r with
  | nil => rfl
  | cons c rest ih =>
    have hc := h c (List.mem_cons_self c rest)
    have hrest : ∀ d ∈ rest, (d ∈ ks₁ ↔ d ∈ ks₂) :=
      fun d hd => h d (List.mem_cons_of_mem c hd)
    by_cases hmem : c ∈ ks₁
    · rw [newEntries, if_pos hmem, newEntries, if_pos (hc.1 hmem), ih (r + 1) hrest]
    · rw [newEntries, if_neg hmem, newEntries, if_neg (fun h2 => hmem (hc.2 h2)),
        ih (r + 1) hrest]

/-- The keyword loop over pairwise-distinct ids: each existing key gains
its keyword bonus in place; unseen ids are appended in encounter order. -/
theorem keywordLoop_eq (l : List Nat) (hl : l.Nodup) (m : FusedMap)
    (hm : (keysOf m).Nodup) (r : Nat) :
    keywordLoop m r l
      = m.map (fun p => (p.1, p.2 + lexBonus r l p.1)) ++ newEntries r (keysOf m) l := by
  induction l generalizing m r with
  | nil =>
    simp [keywordLoop, newEntries, lexBonus_nil]
  | cons c rest ih =>
    rw [List.nodup_cons] at hl
    by_cases hc : c ∈ keysOf m
    · rw [keywordLoop, dictAdd_of_mem m c (contrib r) hm hc]
      rw [ih hl.2 _ (by rw [keysOf_map_update]; exact hm) (r + 1)]
      rw [keysOf_map_update]
      rw [newEntries, if_pos hc]
      congr 1
      rw [List.map_map]
      refine List.map_congr_left ?_
      intro p hp
      simp only [Function.comp]
      by_cases hpc : p.1 = c
      · simp [lexBonus, hpc, add_assoc]
      · simp [lexBonus, hpc, if_neg]
    · rw [keywordLoop, dictAdd_of_not_mem m c (contrib r) hc]
      have hm2 : (keysOf (m ++ [(c, contrib r)])).Nodup := by
        rw [keysOf_append]
        simp only [keysOf, List.map_cons, List.map_nil]
        rw [List.nodup_append]
        refine ⟨hm, List.nodup_singleton c, ?_⟩
        intro a ha
        simp only [List.mem_singleton]
        intro hac
        exact hc (hac ▸ ha)
      rw [ih hl.2 _ hm2 (r + 1)]
      rw [List.map_append]
      have hcrest : lexBonus (r + 1) rest c = 0 := lexBonus_not_mem (r + 1) rest c hl.1
      simp only [List.map_cons, List.map_nil, hcrest, add_zero]
      rw [List.append_assoc]
      congr 1
      · refine List.map_congr_left ?_
        intro p hp
        have hpc : p.1 ≠ c := by
          intro h2
          exact hc (h2 ▸ List.mem_map_of_mem Prod.fst hp)
        simp [lexBonus, hpc, if_neg]
      · rw [newEntries, if_neg hc, List.singleton_append]
        congr 1
        refine newEntries_congr (r + 1) _ _ rest ?_
        intro d hd
        rw [keysOf_append]
        simp only [List.mem_append, keysOf, List.map_cons, List.map_nil,
          List.mem_singleton]
        constructor
        · intro h2
          rcases h2 with h2 | h2
          · exact h2
          · exact absurd (h2 ▸ hd) hl.1
        · intro h2
          exact Or.inl h2

/-- The fused map, explicitly: ids of the vector list in vector order with
their summed contributions, followed by the keyword-only ids in keyword
order with their keyword contributions. -/
theorem fuse_eq (v l : List Nat) (hv : v.Nodup) (hl : l.Nodup) :
    fuse v l
      = (enumFrom 0 v).map (fun p => (p.1, p.2 + lexBonus 0 l p.1))
        ++ newEntries 0 v l := by
  rw [fuse, vectorLoop_eq v hv [] 0 (by simp [keysOf])]
  rw [List.nil_append]
  rw [keywordLoop_eq l hl _ (by rw [keysOf_enumFrom]; exact hv) 0]
  rw [keysOf_enumFrom]

theorem rankIdx_cons_ne (a : Nat) (rest : List Nat) (c : Nat) (h : a ≠ c) :
    rankIdx (a :: rest) c = rankIdx rest c + 1 := by
  simp [rankIdx, h]

/-- In a duplicate-free list, earlier elements have strictly smaller rank. -/
theorem rankIdx_pairwise (v : List Nat) (hv : v.Nodup) :
    v.Pairwise (fun a b => rankIdx v a < rankIdx v b) := by
  induction v with
  | nil => exact List.Pairwise.nil
  | cons c rest ih =>
    rw [List.nodup_cons] at hv
    rw [List.pairwise_cons]
    constructor
    · intro b hb
      have hbc : c ≠ b := fun h => hv.1 (h ▸ hb)
      rw [rankIdx_cons_ne c rest b hbc]
      simp [rankIdx]
    · refine (ih hv.2).imp_of_mem ?_
      intro a b ha hb hab
      have hac : c ≠ a := fun h => hv.1 (h ▸ ha)
      have hbc : c ≠ b := fun h => hv.1 (h ▸ hb)
      rw [rankIdx_cons_ne c rest a hac, rankIdx_cons_ne c rest b hbc]
      omega

theorem mem_enumFrom (r : Nat) (v : List Nat) (p : Nat × ℚ) (hp : p ∈ enumFrom r v) :
    p.1 ∈ v := by
  induction v generalizing r with
  | nil => simp [enumFrom] at hp
  | cons c rest ih =>
    simp only [enumFrom, List.mem_cons] at hp
    rcases hp with rfl | hp
    · exact List.mem_cons_self c rest
    · exact List.mem_cons_of_mem c (ih (r + 1) hp)

theorem mem_enumFrom_score (r : Nat) (v : List Nat) (hv : v.Nodup) (p : Nat × ℚ)
    (hp : p ∈ enumFrom r v) :
    p.2 = contrib (r + rankIdx v p.1) := by
  revert hv hp
  induction v generalizing r with
  | nil => intro hv hp; simp [enumFrom] at hp
  | cons c rest ih =>
    intro hv hp
    rw [List.nodup_cons] at hv
    simp only [enumFrom, List.mem_cons] at hp
    rcases hp with rfl | hp
    · simp [rankIdx]
    · have hpc : c ≠ p.1 := by
        intro h
        exact hv.1 (h ▸ mem_enumFrom (r + 1) rest p hp)
      rw [rankIdx_cons_ne c rest p.1 hpc]
      rw [ih (r + 1) hv.2 hp]
      congr 1
      omega

theorem lexBonus_mem (r : Nat) (l : List Nat) (hl : l.Nodup) (d : Nat) (hd : d ∈ l) :
    lexBonus r l d = contrib (r + rankIdx l d) := by
  revert hl hd
  induction l generalizing r with
  | nil => intro hl hd; simp at hd
  | cons c rest ih =>
    intro hl hd
    rw [List.nodup_cons] at hl
    by_cases hdc : d = c
    · subst hdc
      rw [lexBonus, if_pos rfl, lexBonus_not_mem (r + 1) rest d hl.1]
      simp [rankIdx]
    · rcases List.mem_cons.1 hd with h | h
      · exact absurd h hdc
      · rw [lexBonus, if_neg hdc, rankIdx_cons_ne c rest d (fun h2 => hdc h2.symm)]
        rw [ih (r + 1) hl.2 h]
        rw [zero_add]
        congr 1
        omega

theorem mem_newEntries (r : Nat) (ks l : List Nat) (p : Nat × ℚ)
    (hp : p ∈ newEntries r ks l) :
    p.1 ∈ l ∧ p.1 ∉ ks := by
  induction l generalizing r with
  | nil => simp [newEntries] at hp
  | cons c rest ih =>
    by_cases hc : c ∈ ks
    · rw [newEntries, if_pos hc] at hp
      rcases ih (r + 1) hp with ⟨h1, h2⟩
      exact ⟨List.mem_cons_of_mem c h1, h2⟩
    · rw [newEntries, if_neg hc] at hp
      rcases List.mem_cons.1 hp with rfl | hp
      · exact ⟨List.mem_cons_self c rest, hc⟩
      · rcases ih (r + 1) hp with ⟨h1, h2⟩
        exact ⟨List.mem_cons_of_mem c h1, h2⟩

theorem mem_newEntries_score (r : Nat) (ks l : List Nat) (hl : l.Nodup) (p : Nat × ℚ)
    (hp : p ∈ newEntries r ks l) :
    p.2 = contrib (r + rankIdx l p.1) := by
  revert hl hp
  induction l generalizing r with
  | nil => intro hl hp; simp [newEntries] at hp
  | cons c rest ih =>
    intro hl hp
    rw [List.nodup_cons] at hl
    by_cases hc : c ∈ ks
    · rw [newEntries, if_pos hc] at hp
      have hpc : c ≠ p.1 := fun h =>
        hl.1 (h ▸ (mem_newEntries (r + 1) ks rest p hp).1)
      rw [rankIdx_cons_ne c rest p.1 hpc, ih (r + 1) hl.2 hp]
      congr 1
      omega
    · rw [newEntries, if_neg hc] at hp
      rcases List.mem_cons.1 hp with rfl | hp
      · simp [rankIdx]
      · have hpc : c ≠ p.1 := fun h =>
          hl.1 (h ▸ (mem_newEntries (r + 1) ks rest p hp).1)
        rw [rankIdx_cons_ne c rest p.1 hpc, ih (r + 1) hl.2 hp]
        congr 1
        omega

theorem newEntries_keys_sublist (r : Nat) (ks l : List Nat) :
    List.Sublist (keysOf (newEntries r ks l)) l := by
  induction l generalizing r with
  | nil => simp [newEntries, keysOf]
  | cons c rest ih =>
    by_cases hc : c ∈ ks
    · rw [newEntries, if_pos hc]
      exact (ih (r + 1)).cons c
    · rw [newEntries, if_neg hc]
      simp only [keysOf, List.map_cons]
      exact (ih (r + 1)).cons₂ c

theorem mem_keysOf_newEntries (r : Nat) (ks l : List Nat) (c : Nat) :
    c ∈ keysOf (newEntries r ks l) ↔ c ∈ l ∧ c ∉ ks := by
  induction l generalizing r with
  | nil => simp [newEntries, keysOf]
  | cons a rest ih =>
    by_cases ha : a ∈ ks
    · rw [newEntries, if_pos ha, ih (r + 1)]
      simp only [List.mem_cons]
      constructor
      · rintro ⟨h1, h2⟩
        exact ⟨Or.inr h1, h2⟩
      · rintro ⟨h1 | h1, h2⟩
        · exact absurd (h1 ▸ ha) h2
        · exact ⟨h1, h2⟩
    · rw [newEntries, if_neg ha]
      simp only [keysOf, List.map_cons, List.mem_cons]
      rw [show List.map Prod.fst (newEntries (r + 1) ks rest)
          = keysOf (newEntries (r + 1) ks rest) from rfl, ih (r + 1)]
      constructor
      · rintro (rfl | ⟨h1, h2⟩)
        · exact ⟨Or.inl rfl, ha⟩
        · exact ⟨Or.inr h1, h2⟩
      · rintro ⟨h1 | h1, h2⟩
        · exact Or.inl h1
        · exact Or.inr ⟨h1, h2⟩

/-- Every id fused from duplicate-free inputs carries exactly the summed
RRF score of the spec. -/
theorem fuse_score (v l : List Nat) (hv : v.Nodup) (hl : l.Nodup) :
    ∀ p ∈ fuse v l, p.2 = rrfScore v l p.1 := by
  intro p hp
  rw [fuse_eq v l hv hl] at hp
  rcases List.mem_append.1 hp with hp | hp
  · rcases List.mem_map.1 hp with ⟨q, hq, rfl⟩
    have hq1 : q.1 ∈ v := mem_enumFrom 0 v q hq
    have hq2 : q.2 = contrib (0 + rankIdx v q.1) := mem_enumFrom_score 0 v hv q hq
    change q.2 + lexBonus 0 l q.1 = _
    rw [rrfScore, if_pos hq1]
    by_cases hql : q.1 ∈ l
    · rw [if_pos hql, lexBonus_mem 0 l hl q.1 hql, hq2, zero_add, zero_add]
    · rw [if_neg hql, lexBonus_not_mem 0 l q.1 hql, hq2, zero_add, add_zero]
  · have h1 := mem_newEntries 0 v l p hp
    have h2 := mem_newEntries_score 0 v l hl p hp
    rw [rrfScore, if_neg h1.2, if_pos h1.1, h2, zero_add, zero_add]

theorem keysOf_fuse (v l : List Nat) (hv : v.Nodup) (hl : l.Nodup) (c : Nat) :
    c ∈ keysOf (fuse v l) ↔ c ∈ v ∨ c ∈ l := by
  rw [fuse_eq v l hv hl, keysOf_append, List.mem_append, keysOf_map_if,
    keysOf_enumFrom, mem_keysOf_newEntries]
  by_cases hcv : c ∈ v
  · simp [hcv]
  · simp [hcv]

/-- The RRF contribution is strictly antitone in the rank. -/
theorem contrib_lt {i j : Nat} (h : i < j) : contrib j < contrib i := by
  unfold contrib
  rw [div_lt_div_iff₀ (by positivity) (by positivity)]
  have hij : (i : ℚ) < j := by exact_mod_cast h
  linarith

theorem contrib_pos (i : Nat) : 0 < contrib i := by
  unfold contrib
  positivity

theorem enumFrom_pairwise_fst (R : Nat → Nat → Prop) (r : Nat) (v : List Nat)
    (hv : v.Pairwise R) :
    (enumFrom r v).Pairwise (fun p q => R p.1 q.1) := by
  induction v generalizing r with
  | nil => exact List.Pairwise.nil
  | cons c rest ih =>
    rw [List.pairwise_cons] at hv
    rw [enumFrom, List.pairwise_cons]
    refine ⟨?_, ih (r + 1) hv.2⟩
    intro q hq
    exact hv.1 q.1 (mem_enumFrom (r + 1) rest q hq)

theorem newEntries_self_nil (r : Nat) (ks l : List Nat) (h : ∀ c ∈ l, c ∈ ks) :
    newEntries r ks l = [] := by
  induction l generalizing r with
  | nil => rfl
  | cons c rest ih =>
    rw [newEntries, if_pos (h c (List.mem_cons_self c rest))]
    exact ih (r + 1) (fun d hd => h d (List.mem_cons_of_mem c hd))

/-! ### Raw key provenance (no duplicate-freedom needed) -/

theorem mem_keysOf_dictSet (m : FusedMap) (c : Nat) (x : ℚ) (p : Nat × ℚ)
    (hp : p ∈ dictSet m c x) : p.1 ∈ keysOf m ∨ p.1 = c := by
  induction m with
  | nil =>
    simp only [dictSet, List.mem_singleton] at hp
    exact Or.inr (by rw [hp])
  | cons q rest ih =>
    by_cases hq : q.1 = c
    · rw [dictSet, if_pos hq] at hp
      rcases List.mem_cons.1 hp with rfl | hp
      · exact Or.inr hq
      · exact Or.inl (List.mem_cons_of_mem _ (List.mem_map_of_mem Prod.fst hp))
    · rw [dictSet, if_neg hq] at hp
      rcases List.mem_cons.1 hp with rfl | hp
      · exact Or.inl (List.mem_cons_self _ _)
      · rcases ih hp with h | h
        · exact Or.inl (List.mem_cons_of_mem _ h)
        · exact Or.inr h

theorem mem_keysOf_dictAdd (m : FusedMap) (c : Nat) (x : ℚ) (p : Nat × ℚ)
    (hp : p ∈ dictAdd m c x) : p.1 ∈ keysOf m ∨ p.1 = c := by
  induction m with
  | nil =>
    simp only [dictAdd, List.mem_singleton] at hp
    exact Or.inr (by rw [hp])
  | cons q rest ih =>
    by_cases hq : q.1 = c
    · rw [dictAdd, if_pos hq] at hp
      rcases List.mem_cons.1 hp with rfl | hp
      · exact Or.inr hq
      · exact Or.inl (List.mem_cons_of_mem _ (List.mem_map_of_mem Prod.fst hp))
    · rw [dictAdd, if_neg hq] at hp
      rcases List.mem_cons.1 hp with rfl | hp
      · exact Or.inl (List.mem_cons_self _ _)
      · rcases ih hp with h | h
        · exact Or.inl (List.mem_cons_of_mem _ h)
        · exact Or.inr h

theorem mem_vectorLoop (v : List Nat) (m : FusedMap) (r : Nat) (p : Nat × ℚ)
    (hp : p ∈ vectorLoop m r v) : p.1 ∈ keysOf m ∨ p.1 ∈ v := by
  induction v generalizing m r with
  | nil => exact Or.inl (List.mem_map_of_mem Prod.fst hp)
  | cons c rest ih =>
    rw [vectorLoop] at hp
    rcases ih (dictSet m c (contrib r)) (r + 1) hp with h | h
    · rcases List.mem_map.1 h with ⟨q, hq, hq2⟩
      rcases mem_keysOf_dictSet m c (contrib r) q hq with h2 | h2
      · exact Or.inl (hq2 ▸ h2)
      · refine Or.inr ?_
        rw [← hq2, h2]
        exact List.mem_cons_self c rest
    · exact Or.inr (List.mem_cons_of_mem c h)

theorem mem_keywordLoop (l : List Nat) (m : FusedMap) (r : Nat) (p : Nat × ℚ)
    (hp : p ∈ keywordLoop m r l) : p.1 ∈ keysOf m ∨ p.1 ∈ l := by
  induction l generalizing m r with
  | nil => exact Or.inl (List.mem_map_of_mem Prod.fst hp)
  | cons c rest ih =>
    rw [keywordLoop] at hp
    rcases ih (dictAdd m c (contrib r)) (r + 1) hp with h | h
    · rcases List.mem_map.1 h with ⟨q, hq, hq2⟩
      rcases mem_keysOf_dictAdd m c (contrib r) q hq with h2 | h2
      · exact Or.inl (hq2 ▸ h2)
      · refine Or.inr ?_
        rw [← hq2, h2]
        exact List.mem_cons_self c rest
    · exact Or.inr (List.mem_cons_of_mem c h)

theorem mem_fuse_provenance (v l : List Nat) (p : Nat × ℚ) (hp : p ∈ fuse v l) :
    p.1 ∈ v ∨ p.1 ∈ l := by
  rcases mem_keywordLoop l (vectorLoop [] 0 v) 0 p hp with h | h
  · rcases List.mem_map.1 h with ⟨q, hq, hq2⟩
    rcases mem_vectorLoop v [] 0 q hq with h2 | h2
    · simp [keysOf] at h2
    · exact Or.inl (hq2 ▸ h2)
  · exact Or.inr h

theorem mem_vectorResultsLoop (i : Nat) (pairs : List (ℚ × Int)) (s : VecResult)
    (hs : s ∈ vectorResultsLoop i pairs) :
    ∃ p ∈ pairs, p.2 ≠ -1 ∧ s.chunk_id = p.2 ∧ s.vector_score = 1 / (1 + p.1) := by
  induction pairs generalizing i with
  | nil => simp [vectorResultsLoop] at hs
  | cons q rest ih =>
    rcases q with ⟨d, idx⟩
    by_cases hidx : idx = -1
    · rw [vectorResultsLoop, if_pos hidx] at hs
      rcases ih (i + 1) hs with ⟨p, hp, h⟩
      exact ⟨p, List.mem_cons_of_mem _ hp, h⟩
    · rw [vectorResultsLoop, if_neg hidx] at hs
      rcases List.mem_cons.1 hs with rfl | hs
      · exact ⟨(d, idx), List.mem_cons_self _ rest, hidx, rfl, rfl⟩
      · rcases ih (i + 1) hs with ⟨p, hp, h⟩
        exact ⟨p, List.mem_cons_of_mem _ hp, h⟩

/-! ## Claims -/

/-- C1: for duplicate-free best-first input lists and k ≥ 1, hybrid RRF
fusion scores each item with the sum over the lists containing it of
1/(60 + rank + 1), covers exactly the ids of the two lists, sorts by
descending summed score and truncates to the top k (every fused item left
out scores no higher than any kept item); on vector [A,B,C] = [0,1,2]
and lexical [C,A] = [2,0] with k = 2 the top-2 is [A, C] with scores
1/61 + 1/62 and 1/63 + 1/61. -/
theorem rrf_fusion_correct (v l : List Nat) (k : Nat)
    (hv : v.Nodup) (hl : l.Nodup) (hk : 1 ≤ k) :
    (∀ p ∈ hybridFuse v l k, p.2 = rrfScore v l p.1)
    ∧ (hybridFuse v l k).Pairwise (fun a b => b.2 ≤ a.2)
    ∧ (hybridFuse v l k).length = min k (fuse v l).length
    ∧ (∀ c, c ∈ keysOf (fuse v l) ↔ c ∈ v ∨ c ∈ l)
    ∧ (∀ p ∈ hybridFuse v l k, ∀ q ∈ fuse v l,
        q ∉ hybridFuse v l k → q.2 ≤ p.2)
    ∧ hybridFuse [0, 1, 2] [2, 0] 2 = [(0, 1/61 + 1/62), (2, 1/63 + 1/61)] := by
  refine ⟨?_, ?_, ?_, keysOf_fuse v l hv hl, ?_, ?_⟩
  · intro p hp
    have hp2 : p ∈ sortDescBy Prod.snd (fuse v l) := List.mem_of_mem_take hp
    exact fuse_score v l hv hl p ((mem_sortDescBy Prod.snd p (fuse v l)).1 hp2)
  · exact (sortDescBy_sorted Prod.snd (fuse v l)).take
  · rw [hybridFuse, List.length_take, sortDescBy_length]
  · intro p hp q hq hq2
    have hqs : q ∈ sortDescBy Prod.snd (fuse v l) :=
      (mem_sortDescBy Prod.snd q (fuse v l)).2 hq
    have hqdrop : q ∈ (sortDescBy Prod.snd (fuse v l)).drop k := by
      rcases (List.mem_append.1
          ((List.take_append_drop k (sortDescBy Prod.snd (fuse v l))) ▸ hqs))
        with h | h
      · exact absurd h hq2
      · exact h
    exact (sortDescBy_sorted Prod.snd (fuse v l)).rel_of_mem_take_of_mem_drop
      hp hqdrop
  · norm_num [hybridFuse, fuse, keywordLoop, vectorLoop, dictSet, dictAdd,
      sortDescBy, insertDescBy, contrib]

/-- Witness for C1 at the spec's concrete scenario. -/
theorem rrf_fusion_correct_witness :
    (∀ p ∈ hybridFuse [0, 1, 2] [2, 0] 2, p.2 = rrfScore [0, 1, 2] [2, 0] p.1)
    ∧ (hybridFuse [0, 1, 2] [2, 0] 2).Pairwise (fun a b => b.2 ≤ a.2)
    ∧ (hybridFuse [0, 1, 2] [2, 0] 2).length = min 2 (fuse [0, 1, 2] [2, 0]).length
    ∧ (∀ c, c ∈ keysOf (fuse [0, 1, 2] [2, 0]) ↔ c ∈ [0, 1, 2] ∨ c ∈ [2, 0])
    ∧ (∀ p ∈ hybridFuse [0, 1, 2] [2, 0] 2, ∀ q ∈ fuse [0, 1, 2] [2, 0],
        q ∉ hybridFuse [0, 1, 2] [2, 0] 2 → q.2 ≤ p.2)
    ∧ hybridFuse [0, 1, 2] [2, 0] 2 = [(0, 1/61 + 1/62), (2, 1/63 + 1/61)] :=
  rrf_fusion_correct [0, 1, 2] [2, 0] 2 (by decide) (by decide) (by decide)

/-- C8: every chunk id in the fused output of hybrid_search appeared in at
least one of the two input lists (the fuser never fabricates ids); no
duplicate-freedom of the inputs is needed. -/
theorem rrf_no_fabricated_ids (v l : List Nat) (k : Nat) :
    ∀ p ∈ hybridFuse v l k, p.1 ∈ v ∨ p.1 ∈ l := by
  intro p hp
  have hp2 : p ∈ sortDescBy Prod.snd (fuse v l) := List.mem_of_mem_take hp
  exact mem_fuse_provenance v l p ((mem_sortDescBy Prod.snd p (fuse v l)).1 hp2)

/-- Witness for C8: the entry (5, 1/61) is in the fused output of vector
[5] and lexical [7], and its id came from an input list. -/
theorem rrf_no_fabricated_ids_witness :
    (5, contrib 0) ∈ hybridFuse [5] [7] 2
    ∧ ((5 : Nat) ∈ [5] ∨ (5 : Nat) ∈ [7]) :=
  have h : (5, contrib 0) ∈ hybridFuse [5] [7] 2 := by
    norm_num [hybridFuse, fuse, keywordLoop, vectorLoop, dictSet, dictAdd,
      sortDescBy, insertDescBy, contrib]
  ⟨h, rrf_no_fabricated_ids [5] [7] 2 (5, contrib 0) h⟩

/-- C9: fusing a duplicate-free list A with itself doubles every item's
single-list contribution uniformly, so the fused output is A itself (its
ids in A's order, truncated to k). -/
theorem rrf_self_fusion (a : List Nat) (k : Nat) (ha : a.Nodup) :
    (hybridFuse a a k).map Prod.fst = a.take k
    ∧ ∀ p ∈ hybridFuse a a k, p.2 = 2 * contrib (rankIdx a p.1) := by
  have hnew : newEntries 0 a a = [] := newEntries_self_nil 0 a a (fun c hc => hc)
  have hfuse : fuse a a
      = (enumFrom 0 a).map (fun p => (p.1, p.2 + lexBonus 0 a p.1)) := by
    rw [fuse_eq a a ha ha, hnew, List.append_nil]
  have hscore : ∀ p ∈ (enumFrom 0 a).map (fun p => (p.1, p.2 + lexBonus 0 a p.1)),
      p.2 = 2 * contrib (rankIdx a p.1) := by
    intro p hp
    rcases List.mem_map.1 hp with ⟨q, hq, hq2⟩
    have h1 : q.1 ∈ a := mem_enumFrom 0 a q hq
    have h2 : q.2 = contrib (0 + rankIdx a q.1) := mem_enumFrom_score 0 a ha q hq
    rw [← hq2]
    change q.2 + lexBonus 0 a q.1 = _
    rw [h2, lexBonus_mem 0 a ha q.1 h1, zero_add]
    ring
  have hsorted : ((enumFrom 0 a).map
      (fun p => (p.1, p.2 + lexBonus 0 a p.1))).Pairwise
      (fun p q => q.2 < p.2) := by
    rw [List.pairwise_map]
    refine (enumFrom_pairwise_fst (fun c d => rankIdx a c < rankIdx a d) 0 a
      (rankIdx_pairwise a ha)).imp_of_mem ?_
    intro p q hp hq hlt
    have hsp := hscore _ (List.mem_map_of_mem _ hp)
    have hsq := hscore _ (List.mem_map_of_mem _ hq)
    change Prod.snd _ < Prod.snd _
    rw [hsp, hsq]
    have := contrib_lt hlt
    linarith
  have hid : sortDescBy Prod.snd (fuse a a) = fuse a a := by
    rw [hfuse]
    exact sortDescBy_of_sorted Prod.snd _ hsorted
  constructor
  · rw [hybridFuse, hid, hfuse, List.map_take, List.map_map]
    have h2 : List.map (Prod.fst ∘ fun p => (p.1, p.2 + lexBonus 0 a p.1))
        (enumFrom 0 a) = List.map Prod.fst (enumFrom 0 a) := by
      refine List.map_congr_left ?_
      intro p hp
      rfl
    rw [h2, show List.map Prod.fst (enumFrom 0 a) = a from keysOf_enumFrom 0 a]
  · intro p hp
    rw [hybridFuse, hid, hfuse] at hp
    exact hscore p (List.mem_of_mem_take hp)

/-- Witness for C9 on A = [4, 9], k = 1. -/
theorem rrf_self_fusion_witness :
    (hybridFuse [4, 9] [4, 9] 1).map Prod.fst = ([4, 9] : List Nat).take 1
    ∧ ∀ p ∈ hybridFuse [4, 9] [4, 9] 1, p.2 = 2 * contrib (rankIdx [4, 9] p.1) :=
  rrf_self_fusion [4, 9] 1 (by decide)

/-- The fused map lists its entries in strictly increasing tie-break order:
vector-list entries first, in vector-rank order, then lexical-only entries
in lexical-rank order. -/
theorem fuse_pairwise_tieLt (v l : List Nat) (hv : v.Nodup) (hl : l.Nodup) :
    (fuse v l).Pairwise (fun p q => TieLt v l p.1 q.1) := by
  rw [fuse_eq v l hv hl]
  rw [List.pairwise_append]
  refine ⟨?_, ?_, ?_⟩
  · rw [List.pairwise_map]
    refine (enumFrom_pairwise_fst (fun c d => rankIdx v c < rankIdx v d) 0 v
      (rankIdx_pairwise v hv)).imp_of_mem ?_
    intro p q hp hq hlt
    have hpv : p.1 ∈ v := mem_enumFrom 0 v p hp
    have hqv : q.1 ∈ v := mem_enumFrom 0 v q hq
    refine Or.inl ?_
    rw [rankO, if_pos hpv, rankO, if_pos hqv]
    exact_mod_cast hlt
  · have hsub : List.Sublist (keysOf (newEntries 0 v l)) l :=
      newEntries_keys_sublist 0 v l
    have hpw : (keysOf (newEntries 0 v l)).Pairwise
        (fun c d => rankIdx l c < rankIdx l d) :=
      (rankIdx_pairwise l hl).sublist hsub
    rw [keysOf] at hpw
    rw [← List.pairwise_map (f := Prod.fst)]
    refine hpw.imp_of_mem ?_
    intro c d hc hd hlt
    have hcm : c ∈ l ∧ c ∉ v := by
      rw [← mem_keysOf_newEntries 0 v l c]
      exact hc
    have hdm : d ∈ l ∧ d ∉ v := by
      rw [← mem_keysOf_newEntries 0 v l d]
      exact hd
    refine Or.inr ⟨?_, Or.inl ?_⟩
    · rw [rankO, if_neg hcm.2, rankO, if_neg hdm.2]
    · rw [rankO, if_pos hcm.1, rankO, if_pos hdm.1]
      exact_mod_cast hlt
  · intro p hp q hq
    rcases List.mem_map.1 hp with ⟨p0, hp0, hp1⟩
    have hpv : p.1 ∈ v := by
      rw [← hp1]
      exact mem_enumFrom 0 v p0 hp0
    have hqv : q.1 ∉ v := (mem_newEntries 0 v l q hq).2
    refine Or.inl ?_
    rw [rankO, if_pos hpv, rankO, if_neg hqv]
    exact WithTop.coe_lt_top _

/-- C2: whenever two items receive equal fused scores, the fused output of
hybrid_search orders them by vector rank (absent = +∞), then lexical rank
(absent = +∞), then ascending chunk id: the stable descending sort keeps
ties in dict insertion order, which is exactly that order. -/
theorem rrf_tiebreak_deterministic (v l : List Nat) (k : Nat)
    (hv : v.Nodup) (hl : l.Nodup) :
    (hybridFuse v l k).Pairwise (fun p q => p.2 = q.2 → TieLt v l p.1 q.1) := by
  refine List.Pairwise.take ?_
  refine sortDescBy_pairwise_tie Prod.snd (fun p q => TieLt v l p.1 q.1)
    (fuse v l) ?_
  refine (fuse_pairwise_tieLt v l hv hl).imp ?_
  intro a b h _
  exact h

/-- Witness for C2: vector [5] and lexical [7] tie at score 1/61; the item
from the vector list precedes the lexical-only item. -/
theorem rrf_tiebreak_deterministic_witness :
    (hybridFuse [5] [7] 2).Pairwise
      (fun p q => p.2 = q.2 → TieLt [5] [7] p.1 q.1) :=
  rrf_tiebreak_deterministic [5] [7] 2 (by decide) (by decide)

theorem vectorResultsLoop_sorted (pairs : List (ℚ × Int)) (i : Nat)
    (hsorted : pairs.Pairwise (fun p q => p.1 ≤ q.1))
    (hnonneg : ∀ p ∈ pairs, 0 ≤ p.1) :
    (vectorResultsLoop i pairs).Pairwise
      (fun s t => t.vector_score ≤ s.vector_score) := by
  induction pairs generalizing i with
  | nil => exact List.Pairwise.nil
  | cons q rest ih =>
    rcases q with ⟨d, idx⟩
    rw [List.pairwise_cons] at hsorted
    have hnn : ∀ p ∈ rest, 0 ≤ p.1 :=
      fun p hp => hnonneg p (List.mem_cons_of_mem _ hp)
    have hd : 0 ≤ d := hnonneg (d, idx) (List.mem_cons_self _ _)
    by_cases hidx : idx = -1
    · rw [vectorResultsLoop, if_pos hidx]
      exact ih (i + 1) hsorted.2 hnn
    · rw [vectorResultsLoop, if_neg hidx]
      rw [List.pairwise_cons]
      refine ⟨?_, ih (i + 1) hsorted.2 hnn⟩
      intro t ht
      rcases mem_vectorResultsLoop (i + 1) rest t ht with ⟨p, hp, _, _, hscore⟩
      have hdp : d ≤ p.1 := hsorted.1 p hp
      have h0p : 0 ≤ p.1 := hnn p hp
      rw [hscore]
      change (1 : ℚ) / (1 + p.1) ≤ 1 / (1 + d)
      exact one_div_le_one_div_of_le (by linarith) (by linarith)

/-- C10: each result of vector_search carries score 1/(1 + distance);
because this transform is strictly decreasing on non-negative distances,
a FAISS row of non-decreasing distances yields non-increasing scores, each
in (0, 1]. -/
theorem vector_score_transform (pairs : List (ℚ × Int))
    (hsorted : pairs.Pairwise (fun p q => p.1 ≤ q.1))
    (hnonneg : ∀ p ∈ pairs, 0 ≤ p.1) :
    (∀ s ∈ vector_search pairs,
        ∃ p ∈ pairs, p.2 ≠ -1 ∧ s.chunk_id = p.2 ∧ s.vector_score = 1 / (1 + p.1))
    ∧ (vector_search pairs).Pairwise (fun s t => t.vector_score ≤ s.vector_score)
    ∧ ∀ s ∈ vector_search pairs, 0 < s.vector_score ∧ s.vector_score ≤ 1 := by
  refine ⟨mem_vectorResultsLoop 0 pairs, vectorResultsLoop_sorted pairs 0 hsorted hnonneg, ?_⟩
  intro s hs
  rcases mem_vectorResultsLoop 0 pairs s hs with ⟨p, hp, _, _, hscore⟩
  have h0 : 0 ≤ p.1 := hnonneg p hp
  rw [hscore]
  constructor
  · positivity
  · rw [div_le_one (by linarith)]
    linarith

/-- Witness for C10 on the FAISS row [(0, 7), (1, -1), (2, 9)]: the
invalid index -1 is dropped and scores 1, 1/3 decrease within (0, 1]. -/
theorem vector_score_transform_witness :
    (∀ s ∈ vector_search [((0 : ℚ), (7 : Int)), (1, -1), (2, 9)],
        ∃ p ∈ [((0 : ℚ), (7 : Int)), (1, -1), (2, 9)],
          p.2 ≠ -1 ∧ s.chunk_id = p.2 ∧ s.vector_score = 1 / (1 + p.1))
    ∧ (vector_search [((0 : ℚ), (7 : Int)), (1, -1), (2, 9)]).Pairwise
        (fun s t => t.vector_score ≤ s.vector_score)
    ∧ ∀ s ∈ vector_search [((0 : ℚ), (7 : Int)), (1, -1), (2, 9)],
        0 < s.vector_score ∧ s.vector_score ≤ 1 :=
  vector_score_transform [((0 : ℚ), (7 : Int)), (1, -1), (2, 9)]
    (by norm_num [List.pairwise_cons])
    (by
      intro p hp
      simp only [List.mem_cons, List.not_mem_nil, or_false] at hp
      rcases hp with rfl | rfl | rfl <;> norm_num)

/-- C7: rerank returns exactly min(final_k, number of candidates) results,
sorted by descending rerank score, every returned text being one of the
input candidates; the empty candidate list yields the empty result. -/
theorem rerank_contract (score : String → ℚ) (candidates : List String)
    (final_k : Nat) :
    (rerank score candidates final_k).length = min final_k candidates.length
    ∧ (rerank score candidates final_k).Pairwise
        (fun a b => b.rerank_score ≤ a.rerank_score)
    ∧ (∀ r ∈ rerank score candidates final_k, r.text ∈ candidates)
    ∧ rerank score [] final_k = [] := by
  refine ⟨?_, ?_, ?_, rfl⟩
  · by_cases hc : candidates = []
    · subst hc
      simp [rerank]
    · rw [rerank, if_neg hc, List.length_take, sortDescBy_length,
        List.length_map, List.enum_length]
  · by_cases hc : candidates = []
    · subst hc
      simp [rerank]
    · rw [rerank, if_neg hc]
      exact (sortDescBy_sorted _ _).take
  · intro r hr
    by_cases hc : candidates = []
    · subst hc
      simp [rerank] at hr
    · rw [rerank, if_neg hc] at hr
      have hr2 := List.mem_of_mem_take hr
      have hr3 := (mem_sortDescBy _ _ _).1 hr2
      rcases List.mem_map.1 hr3 with ⟨p, hp, hp2⟩
      have htext : r.text = p.2 := by
        rw [← hp2]
      rw [htext]
      exact List.snd_mem_of_mem_enum hp

/-- Witness for C7 on two candidates scored by length, final_k = 1. -/
theorem rerank_contract_witness :
    (rerank (fun s => (s.length : ℚ)) ["a", "bb"] 1).length
        = min 1 (["a", "bb"] : List String).length
    ∧ (rerank (fun s => (s.length : ℚ)) ["a", "bb"] 1).Pairwise
        (fun a b => b.rerank_score ≤ a.rerank_score)
    ∧ (∀ r ∈ rerank (fun s => (s.length : ℚ)) ["a", "bb"] 1,
        r.text ∈ (["a", "bb"] : List String))
    ∧ rerank (fun s => (s.length : ℚ)) [] 1 = [] :=
  rerank_contract (fun s => (s.length : ℚ)) ["a", "bb"] 1

theorem getDocumentDetails_sublist (store : List DocRow) (ids : List Nat) :
    List.Sublist (getDocumentDetails store ids) store := by
  rw [getDocumentDetails]
  by_cases hids : ids = []
  · rw [if_pos hids]
    exact List.nil_sublist store
  · rw [if_neg hids]
    exact List.filter_sublist store

/-- C3 counterexample: with the store holding rows 1 and 2 (table order),
resolving [2, 1] returns [row 1, row 2] — the store's ascending key order,
not the input order — and the scores attached by hybrid_search on vector
[2], lexical [2, 1], k = 2 come out ascending (1/62 then 2/61), so the
returned records are not in descending fused-score order. -/
theorem resolution_order_counterexample :
    getDocumentDetails [demoRow 1, demoRow 2] [2, 1] = [demoRow 1, demoRow 2]
    ∧ [demoRow 1, demoRow 2] ≠ [demoRow 2, demoRow 1]
    ∧ hybrid_search [demoRow 1, demoRow 2] [2] [2, 1] 2
        = [(demoRow 1, 1/62), (demoRow 2, 2/61)]
    ∧ ¬ (hybrid_search [demoRow 1, demoRow 2] [2] [2, 1] 2).Pairwise
        (fun a b => b.2 ≤ a.2) := by
  have h3 : hybrid_search [demoRow 1, demoRow 2] [2] [2, 1] 2
      = [(demoRow 1, 1/62), (demoRow 2, 2/61)] := by
    norm_num [hybrid_search, fuse, keywordLoop, vectorLoop, dictSet, dictAdd,
      sortDescBy, insertDescBy, contrib, getDocumentDetails, dictGetD, demoRow]
    rw [if_neg (by simp : ¬ (([2, 1] : List Nat) = []))]
    norm_num [demoRow]
  refine ⟨?_, ?_, h3, ?_⟩
  · rw [getDocumentDetails, if_neg (by simp : ¬ (([2, 1] : List Nat) = []))]
    simp [demoRow]
  · simp [demoRow]
  · rw [h3]
    intro hpw
    rw [List.pairwise_cons] at hpw
    have := hpw.1 (demoRow 2, 2/61) (List.mem_cons_self _ _)
    norm_num at this

/-- C3 amended: document resolution returns exactly the store's rows whose
key is among the input ids (one per input id that exists, missing ids
silently omitted), but in the store's ascending chunk_id order rather than
input order; consequently hybrid_search returns its records in ascending
chunk_id order, not descending fused-score order. -/
theorem document_resolution_store_order (store : List DocRow)
    (ids v l : List Nat) (k : Nat)
    (hstore : store.Pairwise (fun r s => r.chunk_id < s.chunk_id)) :
    (∀ r, r ∈ getDocumentDetails store ids ↔ r ∈ store ∧ r.chunk_id ∈ ids)
    ∧ List.Sublist (getDocumentDetails store ids) store
    ∧ (getDocumentDetails store ids).Pairwise
        (fun r s => r.chunk_id < s.chunk_id)
    ∧ ((hybrid_search store v l k).map (fun p => p.1.chunk_id)).Pairwise
        (fun c d => c < d) := by
  refine ⟨?_, getDocumentDetails_sublist store ids,
    hstore.sublist (getDocumentDetails_sublist store ids), ?_⟩
  · intro r
    rw [getDocumentDetails]
    by_cases hids : ids = []
    · subst hids
      simp
    · rw [if_neg hids, List.mem_filter]
      simp
  · have hpw := hstore.sublist (getDocumentDetails_sublist store
      (((sortDescBy Prod.snd (fuse v l)).take k).map Prod.fst))
    simp only [hybrid_search]
    rw [List.map_map, List.pairwise_map]
    exact hpw

/-- Witness for the amended C3 at the concrete store and inputs of the
counterexample. -/
theorem document_resolution_store_order_witness :
    (∀ r, r ∈ getDocumentDetails [demoRow 1, demoRow 2] [2, 1]
        ↔ r ∈ [demoRow 1, demoRow 2] ∧ r.chunk_id ∈ [2, 1])
    ∧ List.Sublist (getDocumentDetails [demoRow 1, demoRow 2] [2, 1])
        [demoRow 1, demoRow 2]
    ∧ (getDocumentDetails [demoRow 1, demoRow 2] [2, 1]).Pairwise
        (fun r s => r.chunk_id < s.chunk_id)
    ∧ ((hybrid_search [demoRow 1, demoRow 2] [2] [2, 1] 2).map
        (fun p => p.1.chunk_id)).Pairwise (fun c d => c < d) :=
  document_resolution_store_order [demoRow 1, demoRow 2] [2, 1] [2] [2, 1] 2
    (by simp [demoRow])

/-- C4 counterexample: with the vector search succeeding on [1] and the
lexical search failing, the hybrid query fails outright instead of
returning vector-only results. -/
theorem hybrid_lexical_failure_counterexample :
    hybridSearchE (Except.ok [1]) (Except.error ApiError.operationalError) 1
        = Except.error ApiError.operationalError
    ∧ (Except.error ApiError.operationalError : Except ApiError FusedMap)
        ≠ Except.ok (hybridFuse [1] [] 1) := by
  exact ⟨rfl, by simp⟩

/-- C4 amended: hybrid_search has no exception handling: a failure of
either index search propagates and fails the whole query (there is no
vector-only degradation, no method field, and no RetrievalUnavailable
distinction); only when both searches succeed is the fused result
produced. -/
theorem hybrid_search_propagates_failures (v l : List Nat) (e : ApiError)
    (k : Nat) :
    hybridSearchE (Except.ok v) (Except.error e) k = Except.error e
    ∧ hybridSearchE (Except.error e) (Except.ok l) k = Except.error e
    ∧ hybridSearchE (Except.error e) (Except.error e) k = Except.error e
    ∧ hybridSearchE (Except.ok v) (Except.ok l) k
        = Except.ok (hybridFuse v l k) :=
  ⟨rfl, rfl, rfl, rfl⟩

/-- C5 counterexample: keyword_search called with k = 0 on a non-empty
match set returns an (empty) result list; it does not fail with
InvalidArgument. -/
theorem keyword_search_k_zero_counterexample :
    keywordSearchE [demoFtsRow] 0 = Except.ok []
    ∧ (Except.ok [] : Except ApiError (List KeywordResult))
        ≠ Except.error ApiError.invalidArgument := by
  constructor
  · rfl
  · simp

/-- C5 amended: the search methods perform no k validation and never raise
InvalidArgument: k is passed straight through to the underlying engine, so
keyword_search with k = 0 returns the empty list and with k < 0 returns
every match row (SQLite treats a negative LIMIT as unlimited); only the
HTTP layer's query validation rejects k < 1. -/
theorem keyword_search_no_k_validation (mrows : List FtsRow) (k : Int) :
    keywordSearchE mrows 0 = Except.ok []
    ∧ (k < 0 → keywordSearchE mrows k
        = Except.ok (mrows.map (fun r =>
            ⟨r.chunk_id, r.content, r.paper_title, r.authors,
              normalizeScore r.score⟩))) := by
  constructor
  · simp [keywordSearchE, keyword_search, sqlLimit]
  · intro hk
    simp [keywordSearchE, keyword_search, sqlLimit, hk]

/-- Witness for the amended C5 at one match row and k = -1. -/
theorem keyword_search_no_k_validation_witness :
    keywordSearchE [demoFtsRow] 0 = Except.ok []
    ∧ ((-1 : Int) < 0 → keywordSearchE [demoFtsRow] (-1)
        = Except.ok ([demoFtsRow].map (fun r =>
            ⟨r.chunk_id, r.content, r.paper_title, r.authors,
              normalizeScore r.score⟩))) :=
  keyword_search_no_k_validation [demoFtsRow] (-1)

/-- C6: the code passes the raw query to FTS5's MATCH, and FTS5 rejects
the empty pattern with a syntax error, so an empty query raises
sqlite3.OperationalError instead of returning the empty sequence the spec
prescribes. -/
theorem empty_query_raises (orderedMatches : List FtsRow) (k : Int) :
    keywordSearchQuery "" orderedMatches k
        = Except.error ApiError.operationalError
    ∧ keywordSearchQuery "" orderedMatches k
        ≠ Except.ok [] := by
  constructor
  · rfl
  · intro h
    simp [keywordSearchQuery] at h

end HybridSearch
